import Mathlib

/-!
Verification of the VAE probabilistic core (`src/vae/vae.py`).

Tensors of shape (batch_size, dim) are embedded as lists of rows of reals
(`Mat`); the process-wide torch random generator is embedded as an explicit
stream of reals together with a cursor (`RNG`), consumed in order by each
sampling call.  `torch.randn_like` / `torch.randn` become `drawMatLike` /
`drawMat`, and `torch.bernoulli` thresholds each entry against the next
uniform draw.  Elementwise tensor arithmetic on same-shaped tensors becomes
`zipWith`, and `torch.sum(-, dim=1)` becomes a per-row `List.sum`.
-/

namespace VAE

abbrev Vec := List ℝ

abbrev Mat := List Vec

/-- The process-wide random generator: an abstract stream of reals and the
position of the next value to be consumed. -/
structure RNG where
  stream : ℕ → ℝ
  pos : ℕ

/-- Consume `n` consecutive values from the generator. -/
def drawVec : ℕ → RNG → Vec × RNG
  | 0, g => ([], g)
  | n + 1, g =>
    let r := drawVec n ⟨g.stream, g.pos + 1⟩
    (g.stream g.pos :: r.1, r.2)

/-- `torch.randn(n, d)`: an `n × d` tensor of fresh draws. -/
def drawMat : ℕ → ℕ → RNG → Mat × RNG
  | 0, _, g => ([], g)
  | n + 1, d, g =>
    let r := drawVec d g
    let m := drawMat n d r.2
    (r.1 :: m.1, m.2)

/-- `torch.randn_like(t)`: fresh draws in the shape of the template `t`. -/
def drawMatLike : Mat → RNG → Mat × RNG
  | [], g => ([], g)
  | row :: rows, g =>
    let r := drawVec row.length g
    let m := drawMatLike rows r.2
    (r.1 :: m.1, m.2)

/-- Elementwise binary operation on two same-shaped rows. -/
def map2 (f : ℝ → ℝ → ℝ) (a b : Vec) : Vec := List.zipWith f a b

/-- Elementwise binary operation on two same-shaped tensors. -/
def mat2 (f : ℝ → ℝ → ℝ) (a b : Mat) : Mat := List.zipWith (map2 f) a b

/-- Elementwise unary operation on a tensor. -/
def matMap (f : ℝ → ℝ) (a : Mat) : Mat := a.map (List.map f)

/-- Entry `(i, d)` of a tensor, defaulting to `0` out of range. -/
def entry (m : Mat) (i d : ℕ) : ℝ := (m.getD i []).getD d 0

/-- `VAE.sample_with_reparametrization`, with the `torch.randn_like` noise
`epsilon` made explicit: `sigma = exp(logsigma)` elementwise, and
`z = mu + epsilon * sigma` elementwise. -/
noncomputable def sample_with_reparametrization (mu logsigma epsilon : Mat) : Mat :=
  let sigma := matMap Real.exp logsigma
  mat2 (fun a b => a + b) mu (mat2 (fun a b => a * b) epsilon sigma)

/-- One summand of the KL tensor: `1 + 2*logsigma - mu.pow(2) - (2*logsigma).exp()`
at a single entry. -/
noncomputable def klTerm (m l : ℝ) : ℝ := 1 + 2 * l - m ^ 2 - Real.exp (2 * l)

/-- One row of `VAE.kl_divergence`: `-0.5 * torch.sum(..., dim=1)` restricted
to row `i`. -/
noncomputable def klRow (mu logsigma : Vec) : ℝ :=
  -(0.5) * (List.zipWith klTerm mu logsigma).sum

/-- `VAE.kl_divergence`: per-row closed-form KL against the standard normal. -/
noncomputable def kl_divergence (mu logsigma : Mat) : Vec :=
  List.zipWith klRow mu logsigma

/-- Modelled from the spec: `src/vae/encoder.py` is not under `src/`; the
Encoder is a feed-forward network mapping each observation row independently
to that row's posterior parameters `(mu, logsigma)`.  `encRow` is the
per-row network and `encode` its batched application. -/
def encode (encRow : Vec → Vec × Vec) (x : Mat) : Mat × Mat :=
  (x.map fun r => (encRow r).1, x.map fun r => (encRow r).2)

/-- Modelled from the spec: `src/vae/decoder.py` is not under `src/`; the
Decoder is a feed-forward network mapping each latent row independently to
that row's Bernoulli parameters, strictly inside (0,1). -/
def decode (decRow : Vec → Vec) (z : Mat) : Mat := z.map decRow

/-- One summand of the reconstruction loss:
`x * torch.log(theta) + (1 - x) * torch.log(1 - theta)` at a single entry. -/
noncomputable def reconTerm (xi t : ℝ) : ℝ :=
  xi * Real.log t + (1 - xi) * Real.log (1 - t)

/-- One row of the reconstruction loss: `torch.sum(..., dim=1)` at row `i`. -/
noncomputable def reconRow (x theta : Vec) : ℝ :=
  (List.zipWith reconTerm x theta).sum

/-- The body of `VAE.elbo` with the noise `epsilon` made explicit:
encode, reparametrize, decode, Bernoulli log-likelihood, subtract the KL. -/
noncomputable def elboCore (encRow : Vec → Vec × Vec) (decRow : Vec → Vec)
    (epsilon : Mat) (x : Mat) : Vec :=
  let mu := (encode encRow x).1
  let logsigma := (encode encRow x).2
  let z := sample_with_reparametrization mu logsigma epsilon
  let theta := decode decRow z
  let reconstruction_loss := List.zipWith reconRow x theta
  let kl := kl_divergence mu logsigma
  List.zipWith (fun a b => a - b) reconstruction_loss kl

/-- `VAE.elbo`: the noise is drawn from the generator by
`torch.randn_like(mu)` and the advanced generator is returned. -/
noncomputable def elbo (encRow : Vec → Vec × Vec) (decRow : Vec → Vec)
    (x : Mat) (g : RNG) : Vec × RNG :=
  let mu := (encode encRow x).1
  let e := drawMatLike mu g
  (elboCore encRow decRow e.1 x, e.2)

/-- One row of `torch.bernoulli(theta)`: threshold each parameter against the
next uniform draw, yielding `1` or `0`. -/
noncomputable def bernRow (theta u : Vec) : Vec :=
  List.zipWith (fun t ui => if ui < t then (1 : ℝ) else 0) theta u

/-- `torch.bernoulli` on a batch of parameter rows, consuming the generator. -/
noncomputable def bernoulli : Mat → RNG → Mat × RNG
  | [], g => ([], g)
  | row :: rows, g =>
    let r := drawVec row.length g
    let m := bernoulli rows r.2
    (bernRow row r.1 :: m.1, m.2)

/-- `VAE.sample`: `z = torch.randn(num_samples, latent_dim)`, `theta` from the
decoder, `x = torch.bernoulli(theta)`.  The code performs no validation of
`num_samples`; the only failure (`none`) is `torch.randn` itself rejecting a
negative dimension.  `device` only selects tensor placement and has no
semantic effect. -/
noncomputable def sample (decRow : Vec → Vec) (latent_dim : ℕ) (num_samples : ℤ)
    (device : String) (g : RNG) : Option (Mat × Mat × Mat × RNG) :=
  if num_samples < 0 then none
  else
    let z := drawMat num_samples.toNat latent_dim g
    let theta := decode decRow z.1
    let x := bernoulli theta z.2
    some (z.1, theta, x.1, x.2)

/-! ### Helper lemmas about lists -/

theorem getD_zipWith {α β γ : Type} (f : α → β → γ) :
    ∀ (a : List α) (b : List β) (i : ℕ), i < a.length → i < b.length →
      ∀ (c : γ) (ca : α) (cb : β),
        (List.zipWith f a b).getD i c = f (a.getD i ca) (b.getD i cb)
  | _ :: _, _ :: _, 0, _, _, _, _, _ => rfl
  | _ :: xs, _ :: ys, i + 1, h1, h2, c, ca, cb =>
    getD_zipWith f xs ys i (by simpa using h1) (by simpa using h2) c ca cb

theorem getD_map {α β : Type} (f : α → β) :
    ∀ (a : List α) (i : ℕ), i < a.length → ∀ (c : β) (ca : α),
      (a.map f).getD i c = f (a.getD i ca)
  | _ :: _, 0, _, _, _ => rfl
  | _ :: xs, i + 1, h, c, ca => getD_map f xs i (by simpa using h) c ca

theorem getD_set_eq {α : Type} :
    ∀ (a : List α) (i : ℕ), i < a.length → ∀ (v : α) (c : α),
      (a.set i v).getD i c = v
  | _ :: _, 0, _, _, _ => rfl
  | _ :: xs, i + 1, h, v, c => getD_set_eq xs i (by simpa using h) v c

theorem sum_zipWith_eq_range_sum (f : ℝ → ℝ → ℝ) :
    ∀ (n : ℕ) (a b : Vec), a.length = n → b.length = n →
      (List.zipWith f a b).sum = ∑ d ∈ Finset.range n, f (a.getD d 0) (b.getD d 0)
  | 0, [], [], _, _ => by simp
  | n + 1, x :: xs, y :: ys, ha, hb => by
    rw [List.zipWith_cons_cons, List.sum_cons, Finset.sum_range_succ']
    rw [sum_zipWith_eq_range_sum f n xs ys (by simpa using ha) (by simpa using hb)]
    simp [add_comm]

theorem sum_set_eq (v : ℝ) :
    ∀ (a : Vec) (d : ℕ), d < a.length →
      (a.set d v).sum = a.sum + (v - a.getD d 0)
  | x :: xs, 0, _ => by simp [List.sum_cons]; ring
  | x :: xs, d + 1, h => by
    rw [List.set_cons_succ, List.sum_cons, List.sum_cons,
      sum_set_eq v xs d (by simpa using h), List.getD_cons_succ]
    ring

theorem zipWith_set_left (f : ℝ → ℝ → ℝ) (v : ℝ) :
    ∀ (a b : Vec) (d : ℕ), d < a.length → d < b.length →
      List.zipWith f (a.set d v) b
        = (List.zipWith f a b).set d (f v (b.getD d 0))
  | _ :: _, _ :: _, 0, _, _ => rfl
  | x :: xs, y :: ys, d + 1, h1, h2 => by
    rw [List.set_cons_succ, List.zipWith_cons_cons, List.zipWith_cons_cons,
      List.set_cons_succ, List.getD_cons_succ,
      zipWith_set_left f v xs ys d (by simpa using h1) (by simpa using h2)]

theorem forall_mem_zipWith {α β γ : Type} (f : α → β → γ) {p : γ → Prop}
    (hp : ∀ x y, p (f x y)) :
    ∀ (a : List α) (b : List β), ∀ v ∈ List.zipWith f a b, p v
  | [], _, v, hv => by simp at hv
  | _ :: _, [], v, hv => by simp at hv
  | x :: xs, y :: ys, v, hv => by
    rw [List.zipWith_cons_cons, List.mem_cons] at hv
    rcases hv with h | h
    · exact h ▸ hp x y
    · exact forall_mem_zipWith f hp xs ys v h

theorem sum_nonpos_of_mem :
    ∀ (l : Vec), (∀ x ∈ l, x ≤ 0) → l.sum ≤ 0
  | [], _ => by simp
  | x :: xs, h => by
    rw [List.sum_cons]
    have h1 : x ≤ 0 := h x (List.mem_cons_self x xs)
    have h2 : xs.sum ≤ 0 :=
      sum_nonpos_of_mem xs fun y hy => h y (List.mem_cons_of_mem x hy)
    linarith

/-! ### Shape lemmas for the random draws -/

theorem drawVec_length (n : ℕ) : ∀ g : RNG, (drawVec n g).1.length = n := by
  induction n with
  | zero => intro g; rfl
  | succ n ih => intro g; simp [drawVec, ih]

theorem drawMat_shape (n d : ℕ) :
    ∀ g : RNG, (drawMat n d g).1.length = n ∧
      ∀ r ∈ (drawMat n d g).1, r.length = d := by
  induction n with
  | zero => intro g; exact ⟨rfl, by simp [drawMat]⟩
  | succ n ih =>
    intro g
    refine ⟨by simp [drawMat, (ih _).1], ?_⟩
    intro r hr
    rw [drawMat] at hr
    simp only [List.mem_cons] at hr
    rcases hr with h | h
    · rw [h]; exact drawVec_length d g
    · exact (ih _).2 r h

theorem drawMatLike_shape :
    ∀ (t : Mat) (g : RNG), (drawMatLike t g).1.length = t.length ∧
      ∀ i, ((drawMatLike t g).1.getD i []).length = (t.getD i []).length
  | [], g => ⟨rfl, by intro i; rfl⟩
  | row :: rows, g => by
    refine ⟨by simp [drawMatLike, (drawMatLike_shape rows _).1], ?_⟩
    intro i
    cases i with
    | zero => simp [drawMatLike, drawVec_length]
    | succ i =>
      have h := (drawMatLike_shape rows (drawVec row.length g).2).2 i
      simpa [drawMatLike] using h

/-! ### Access lemmas for the tensor operations -/

theorem mat2_length (f : ℝ → ℝ → ℝ) (a b : Mat) :
    (mat2 f a b).length = min a.length b.length := by
  simp [mat2]

theorem map2_length (f : ℝ → ℝ → ℝ) (a b : Vec) :
    (map2 f a b).length = min a.length b.length := by
  simp [map2]

theorem matMap_length (f : ℝ → ℝ) (a : Mat) : (matMap f a).length = a.length := by
  simp [matMap]

theorem mat2_getD_row (f : ℝ → ℝ → ℝ) (a b : Mat) (i : ℕ)
    (h1 : i < a.length) (h2 : i < b.length) :
    (mat2 f a b).getD i [] = map2 f (a.getD i []) (b.getD i []) :=
  getD_zipWith (map2 f) a b i h1 h2 [] [] []

theorem map2_getD (f : ℝ → ℝ → ℝ) (a b : Vec) (d : ℕ)
    (h1 : d < a.length) (h2 : d < b.length) :
    (map2 f a b).getD d 0 = f (a.getD d 0) (b.getD d 0) :=
  getD_zipWith f a b d h1 h2 0 0 0

theorem matMap_getD_row (f : ℝ → ℝ) (a : Mat) (i : ℕ) (h : i < a.length) :
    (matMap f a).getD i [] = (a.getD i []).map f :=
  getD_map _ a i h [] []

/-! ### Pointwise facts about the KL summand -/

theorem klTerm_nonpos (m l : ℝ) : klTerm m l ≤ 0 := by
  have h := Real.add_one_le_exp (2 * l)
  have hm := sq_nonneg m
  rw [klTerm]
  linarith

theorem klRow_nonneg (a b : Vec) : 0 ≤ klRow a b := by
  rw [klRow]
  have hs : (List.zipWith klTerm a b).sum ≤ 0 :=
    sum_nonpos_of_mem _ (forall_mem_zipWith klTerm klTerm_nonpos a b)
  linarith

theorem klTerm_zero : klTerm 0 0 = 0 := by
  rw [klTerm]
  norm_num [Real.exp_zero]

theorem klRow_zero (D : ℕ) :
    klRow (List.replicate D 0) (List.replicate D 0) = 0 := by
  rw [klRow]
  have h : List.zipWith klTerm (List.replicate D (0 : ℝ)) (List.replicate D 0)
      = List.replicate D 0 := by
    induction D with
    | zero => rfl
    | succ n ih =>
      rw [List.replicate_succ, List.zipWith_cons_cons, ih, klTerm_zero,
        ← List.replicate_succ]
  rw [h]
  simp

/-! ### Claim theorems -/

/-- C1: for `mu`, `logsigma` of shape (batch_size, latent_dim),
`kl_divergence` returns a vector of shape (batch_size,) whose `i`-th entry is
`-0.5 * sum over the latent dimensions of
(1 + 2*logsigma - mu^2 - exp(2*logsigma))` evaluated on row `i`. -/
theorem kl_divergence_spec (mu logsigma : Mat) (D : ℕ)
    (hlen : logsigma.length = mu.length)
    (hrow : ∀ i < mu.length,
      (mu.getD i []).length = D ∧ (logsigma.getD i []).length = D) :
    (kl_divergence mu logsigma).length = mu.length ∧
    ∀ i < mu.length, (kl_divergence mu logsigma).getD i 0 =
      -(0.5) * ∑ d ∈ Finset.range D,
        (1 + 2 * entry logsigma i d - entry mu i d ^ 2
          - Real.exp (2 * entry logsigma i d)) := by
  constructor
  · simp [kl_divergence, hlen]
  · intro i hi
    rw [kl_divergence, getD_zipWith klRow mu logsigma i hi (hlen ▸ hi) 0 [] [],
      klRow, sum_zipWith_eq_range_sum klTerm D _ _ (hrow i hi).1 (hrow i hi).2]
    simp only [klTerm, entry]

theorem kl_divergence_spec_witness :
    (kl_divergence [[(0 : ℝ)]] [[0]]).getD 0 0 =
      -(0.5) * ∑ d ∈ Finset.range 1,
        (1 + 2 * entry [[(0 : ℝ)]] 0 d - entry [[(0 : ℝ)]] 0 d ^ 2
          - Real.exp (2 * entry [[(0 : ℝ)]] 0 d)) :=
  (kl_divergence_spec [[0]] [[0]] 1 rfl
    (by
      intro i hi
      rw [Nat.lt_one_iff.mp hi]
      exact ⟨rfl, rfl⟩)).2 0 (by decide)

/-- C3: `sample_with_reparametrization` returns `z` of the same shape as `mu`
with `z = mu + epsilon * exp(logsigma)` elementwise; given a fixed `epsilon`
(explicit here, standing for the isolated `torch.randn_like` draw) the map
from `(mu, logsigma)` to `z` is a function, hence deterministic. -/
theorem sample_with_reparametrization_spec (mu logsigma epsilon : Mat)
    (hl : logsigma.length = mu.length) (he : epsilon.length = mu.length)
    (hrow : ∀ i < mu.length,
      (logsigma.getD i []).length = (mu.getD i []).length ∧
      (epsilon.getD i []).length = (mu.getD i []).length) :
    (sample_with_reparametrization mu logsigma epsilon).length = mu.length ∧
    (∀ i < mu.length,
      ((sample_with_reparametrization mu logsigma epsilon).getD i []).length
        = (mu.getD i []).length) ∧
    ∀ i < mu.length, ∀ d < (mu.getD i []).length,
      entry (sample_with_reparametrization mu logsigma epsilon) i d
        = entry mu i d + entry epsilon i d * Real.exp (entry logsigma i d) := by
  have hσlen : (matMap Real.exp logsigma).length = mu.length := by
    rw [matMap_length, hl]
  have hplen :
      (mat2 (fun a b => a * b) epsilon (matMap Real.exp logsigma)).length
        = mu.length := by
    rw [mat2_length, he, hσlen, min_self]
  have hrowi : ∀ i, i < mu.length →
      (sample_with_reparametrization mu logsigma epsilon).getD i []
        = map2 (fun a b => a + b) (mu.getD i [])
            (map2 (fun a b => a * b) (epsilon.getD i [])
              ((logsigma.getD i []).map Real.exp)) := by
    intro i hi
    rw [sample_with_reparametrization]
    rw [mat2_getD_row _ mu _ i hi (hplen ▸ hi),
      mat2_getD_row _ epsilon _ i (he ▸ hi) (hσlen ▸ hi),
      matMap_getD_row Real.exp logsigma i (hl ▸ hi)]
  refine ⟨?_, ?_, ?_⟩
  · rw [sample_with_reparametrization, mat2_length, hplen, min_self]
  · intro i hi
    rw [hrowi i hi, map2_length, map2_length, List.length_map,
      (hrow i hi).1, (hrow i hi).2, min_self, min_self]
  · intro i hi d hd
    have hld : d < (logsigma.getD i []).length := (hrow i hi).1 ▸ hd
    have hed : d < (epsilon.getD i []).length := (hrow i hi).2 ▸ hd
    have hmd : d < ((map2 (fun a b => a * b) (epsilon.getD i [])
        ((logsigma.getD i []).map Real.exp)).length) := by
      rw [map2_length, List.length_map, (hrow i hi).1, (hrow i hi).2, min_self]
      exact hd
    rw [entry, hrowi i hi, map2_getD _ _ _ d hd hmd, map2_getD _ _ _ d hed
      (by rw [List.length_map]; exact hld), getD_map Real.exp _ d hld 0 0]
    rfl

theorem sample_with_reparametrization_spec_witness :
    (sample_with_reparametrization [[(1 : ℝ)]] [[0]] [[2]]).length = 1 ∧
    (∀ i < 1,
      ((sample_with_reparametrization [[(1 : ℝ)]] [[0]] [[2]]).getD i []).length
        = (([[(1 : ℝ)]] : Mat).getD i []).length) ∧
    ∀ i < 1, ∀ d < (([[(1 : ℝ)]] : Mat).getD i []).length,
      entry (sample_with_reparametrization [[(1 : ℝ)]] [[0]] [[2]]) i d
        = entry [[(1 : ℝ)]] i d
          + entry [[(2 : ℝ)]] i d * Real.exp (entry [[(0 : ℝ)]] i d) :=
  sample_with_reparametrization_spec [[1]] [[0]] [[2]] rfl rfl
    (by
      intro i hi
      rw [Nat.lt_one_iff.mp hi]
      exact ⟨rfl, rfl⟩)

/-- C5: every entry of `kl_divergence` is non-negative for all inputs, and on
all-zero `mu` and `logsigma` the result is exactly `0` for every row. -/
theorem kl_divergence_nonneg_and_zero :
    (∀ mu logsigma : Mat, ∀ v ∈ kl_divergence mu logsigma, 0 ≤ v) ∧
    (∀ B D : ℕ,
      kl_divergence (List.replicate B (List.replicate D 0))
        (List.replicate B (List.replicate D 0)) = List.replicate B 0) := by
  constructor
  · intro mu logsigma v hv
    rw [kl_divergence] at hv
    exact forall_mem_zipWith klRow klRow_nonneg mu logsigma v hv
  · intro B D
    rw [kl_divergence]
    induction B with
    | zero => rfl
    | succ n ih =>
      rw [List.replicate_succ, List.zipWith_cons_cons, ih, klRow_zero,
        ← List.replicate_succ]

theorem kl_divergence_nonneg_and_zero_witness :
    (0 : ℝ) ≤ klRow [0] [0] ∧
    kl_divergence (List.replicate 1 (List.replicate 1 (0 : ℝ)))
      (List.replicate 1 (List.replicate 1 0)) = List.replicate 1 0 :=
  ⟨kl_divergence_nonneg_and_zero.1 [[0]] [[0]] (klRow [0] [0])
      (by simp [kl_divergence]),
    kl_divergence_nonneg_and_zero.2 1 1⟩

/-- C6: doubling a nonzero `mu` entry, all other entries fixed, strictly
increases that row's KL value: the KL is strictly monotone in `mu^2` per
dimension. -/
theorem kl_divergence_strict_mono_mu (mu logsigma : Mat) (i d : ℕ) (m : ℝ)
    (hi : i < mu.length) (hi2 : i < logsigma.length)
    (hd : d < (mu.getD i []).length) (hd2 : d < (logsigma.getD i []).length)
    (hm : (mu.getD i []).getD d 0 = m) (hm0 : m ≠ 0) :
    (kl_divergence mu logsigma).getD i 0 <
      (kl_divergence (mu.set i ((mu.getD i []).set d (2 * m))) logsigma).getD i 0 := by
  have hset_len : (mu.set i ((mu.getD i []).set d (2 * m))).length = mu.length := by
    simp
  rw [kl_divergence, getD_zipWith klRow mu logsigma i hi hi2 0 [] []]
  rw [kl_divergence,
    getD_zipWith klRow _ logsigma i (hset_len ▸ hi) hi2 0 [] [],
    getD_set_eq mu i hi ((mu.getD i []).set d (2 * m)) []]
  rw [klRow, klRow,
    zipWith_set_left klTerm (2 * m) (mu.getD i []) (logsigma.getD i []) d hd hd2,
    sum_set_eq _ _ d (by rw [List.length_zipWith]; omega),
    getD_zipWith klTerm (mu.getD i []) (logsigma.getD i []) d hd hd2 0 0 0, hm]
  have hdiff : klTerm (2 * m) ((logsigma.getD i []).getD d 0)
      - klTerm m ((logsigma.getD i []).getD d 0) = -(3 * m ^ 2) := by
    rw [klTerm, klTerm]; ring
  rw [hdiff]
  have hm2 : 0 < m ^ 2 := (sq_nonneg m).lt_of_ne (Ne.symm (pow_ne_zero 2 hm0))
  nlinarith [hm2]

theorem kl_divergence_strict_mono_mu_witness :
    (kl_divergence [[(1 : ℝ)]] [[0]]).getD 0 0 <
      (kl_divergence (([[(1 : ℝ)]] : Mat).set 0
        ((([[(1 : ℝ)]] : Mat).getD 0 []).set 0 (2 * 1))) [[0]]).getD 0 0 :=
  kl_divergence_strict_mono_mu [[1]] [[0]] 0 0 1 (by decide) (by decide)
    (by decide) (by decide) rfl one_ne_zero

/-- C4 counterexample: calling `sample` with `num_samples = 0` does not raise
any error; it returns three (empty) tensors, so non-positive `num_samples`
is not rejected with an InvalidArgument error. -/
theorem sample_zero_returns_tensors :
    sample (fun _ => []) 1 0 "cpu" ⟨fun _ => 0, 0⟩
      = some ([], [], [], ⟨fun _ => 0, 0⟩) := rfl

/-- C4 amended: `sample` performs no validation of `num_samples`: with
`num_samples = 0` it returns three empty tensors rather than raising, and a
negative `num_samples` fails only inside `torch.randn` (which rejects a
negative dimension), not through an InvalidArgument validation of the
argument. -/
theorem sample_no_validation (decRow : Vec → Vec) (L : ℕ) (device : String)
    (g : RNG) :
    (∀ n : ℤ, n < 0 → sample decRow L n device g = none) ∧
    sample decRow L 0 device g = some ([], [], [], g) := by
  constructor
  · intro n hn
    rw [sample, if_pos hn]
  · rfl

theorem sample_no_validation_witness :
    sample (fun _ => []) 1 (-1) "cpu" ⟨fun _ => 0, 0⟩ = none ∧
    sample (fun _ => []) 1 0 "cpu" ⟨fun _ => 0, 0⟩
      = some ([], [], [], ⟨fun _ => 0, 0⟩) :=
  ⟨(sample_no_validation (fun _ => []) 1 "cpu" ⟨fun _ => 0, 0⟩).1 (-1)
      (by decide),
    (sample_no_validation (fun _ => []) 1 "cpu" ⟨fun _ => 0, 0⟩).2⟩

/-- C10: `sample(num_samples=0)` does not raise; the code performs no
validation before `torch.randn(num_samples, latent_dim)` and returns three
empty tensors, of shapes (0, latent_dim), (0, input_dim), (0, input_dim). -/
theorem sample_zero_no_raise (decRow : Vec → Vec) (L : ℕ) (device : String)
    (g : RNG) :
    sample decRow L 0 device g = some ([], [], [], g) := rfl

/-- C2: `elbo(x)` computes, in order, `(mu, logsigma)` from the encoder, `z`
by reparametrization from the drawn noise, `theta` from the decoder, the
per-row Bernoulli log-likelihood `sum (x*log(theta) + (1-x)*log(1-theta))`,
the per-row `kl_divergence(mu, logsigma)`, and returns their difference per
row, a tensor of shape (batch_size,). -/
theorem elbo_spec (encRow : Vec → Vec × Vec) (decRow : Vec → Vec) (L D : ℕ)
    (henc1 : ∀ v : Vec, ((encRow v).1).length = L)
    (henc2 : ∀ v : Vec, ((encRow v).2).length = L)
    (hdec : ∀ v : Vec, (decRow v).length = D)
    (x : Mat) (g : RNG)
    (hx : ∀ i < x.length, (x.getD i []).length = D) :
    ((elbo encRow decRow x g).1).length = x.length ∧
    ∀ i < x.length,
      ((elbo encRow decRow x g).1).getD i 0 =
        (∑ j ∈ Finset.range D,
          (entry x i j
              * Real.log (entry (decode decRow (sample_with_reparametrization
                  (encode encRow x).1 (encode encRow x).2
                  (drawMatLike (encode encRow x).1 g).1)) i j)
            + (1 - entry x i j)
              * Real.log (1 - entry (decode decRow (sample_with_reparametrization
                  (encode encRow x).1 (encode encRow x).2
                  (drawMatLike (encode encRow x).1 g).1)) i j)))
        - (kl_divergence (encode encRow x).1 (encode encRow x).2).getD i 0 := by
  set mu := (encode encRow x).1 with hmu
  set ls := (encode encRow x).2 with hls
  set eps := (drawMatLike mu g).1 with heps
  set z := sample_with_reparametrization mu ls eps with hz
  set th := decode decRow z with hth
  have hunfold : (elbo encRow decRow x g).1
      = List.zipWith (fun a b => a - b) (List.zipWith reconRow x th)
          (kl_divergence mu ls) := rfl
  have hmu' : mu = x.map fun r => (encRow r).1 := rfl
  have hls' : ls = x.map fun r => (encRow r).2 := rfl
  have hmul : mu.length = x.length := by rw [hmu']; exact List.length_map x _
  have hlsl : ls.length = x.length := by rw [hls']; exact List.length_map x _
  have hepsl : eps.length = x.length := by
    rw [heps, (drawMatLike_shape mu g).1, hmul]
  have hz' : z = mat2 (fun a b => a + b) mu
      (mat2 (fun a b => a * b) eps (matMap Real.exp ls)) := rfl
  have hzl : z.length = x.length := by
    rw [hz', mat2_length, mat2_length, matMap_length, hlsl, hepsl, hmul]
    omega
  have hthl : th.length = x.length := by
    rw [hth, decode, List.length_map, hzl]
  have hthrow : ∀ i < x.length, th.getD i [] = decRow (z.getD i []) := by
    intro i hi
    rw [hth, decode, getD_map decRow z i (hzl ▸ hi) [] []]
  have hkll : (kl_divergence mu ls).length = x.length := by
    rw [kl_divergence, List.length_zipWith, hmul, hlsl]
    omega
  have hrl : (List.zipWith reconRow x th).length = x.length := by
    rw [List.length_zipWith, hthl]
    omega
  constructor
  · rw [hunfold, List.length_zipWith, hrl, hkll]
    omega
  · intro i hi
    rw [hunfold,
      getD_zipWith (fun a b => a - b) _ _ i (hrl ▸ hi) (hkll ▸ hi) 0 0 0,
      getD_zipWith reconRow x th i hi (hthl ▸ hi) 0 [] [], reconRow,
      sum_zipWith_eq_range_sum reconTerm D _ _ (hx i hi)
        (by rw [hthrow i hi]; exact hdec _)]
    simp only [reconTerm, entry]

theorem elbo_spec_witness :
    ((elbo (fun _ => ([(0 : ℝ)], [0])) (fun _ => [0.5]) [[0]]
      ⟨fun _ => 0, 0⟩).1).length = ([[(0 : ℝ)]] : Mat).length :=
  (elbo_spec (fun _ => ([0], [0])) (fun _ => [0.5]) 1 1 (fun _ => rfl)
    (fun _ => rfl) (fun _ => rfl) [[0]] ⟨fun _ => 0, 0⟩
    (by
      intro i hi
      rw [Nat.lt_one_iff.mp hi]
      rfl)).1

/-- C8: `elbo` is a deterministic function of its input and of the noise
matrix drawn by `torch.randn_like` inside `sample_with_reparametrization`:
any two generator states that yield the same noise draw — in particular, a
state reset identically between two calls — produce identical outputs, so
the isolated noise draw is the only source of randomness in `elbo`. -/
theorem elbo_deterministic_given_rng (encRow : Vec → Vec × Vec)
    (decRow : Vec → Vec) (x : Mat) (g1 g2 : RNG)
    (h : (drawMatLike (encode encRow x).1 g1).1
      = (drawMatLike (encode encRow x).1 g2).1) :
    (elbo encRow decRow x g1).1 = (elbo encRow decRow x g2).1 := by
  show elboCore encRow decRow (drawMatLike (encode encRow x).1 g1).1 x
    = elboCore encRow decRow (drawMatLike (encode encRow x).1 g2).1 x
  rw [h]

theorem elbo_deterministic_given_rng_witness :
    (elbo (fun v => (v, v)) (fun v => v) [[0]] ⟨fun _ => 0, 0⟩).1
      = (elbo (fun v => (v, v)) (fun v => v) [[0]] ⟨fun _ => 0, 5⟩).1 :=
  elbo_deterministic_given_rng (fun v => (v, v)) (fun v => v) [[0]]
    ⟨fun _ => 0, 0⟩ ⟨fun _ => 0, 5⟩ rfl

/-- C9: row `i` of `kl_divergence` depends only on row `i` of `mu` and
`logsigma`, and row `i` of the elbo body depends only on row `i` of `x` and
row `i` of the noise: changing any other row leaves output row `i`
unchanged. -/
theorem row_locality (encRow : Vec → Vec × Vec) (decRow : Vec → Vec)
    (mu mu2 ls ls2 eps eps2 x x2 : Mat) (i : ℕ)
    (hmu : mu[i]? = mu2[i]?) (hls : ls[i]? = ls2[i]?)
    (hx : x[i]? = x2[i]?) (heps : eps[i]? = eps2[i]?) :
    (kl_divergence mu ls)[i]? = (kl_divergence mu2 ls2)[i]? ∧
    (elboCore encRow decRow eps x)[i]? = (elboCore encRow decRow eps2 x2)[i]? := by
  constructor
  · rw [kl_divergence, kl_divergence, List.getElem?_zipWith,
      List.getElem?_zipWith, hmu, hls]
  · simp only [elboCore, encode, decode, kl_divergence,
      sample_with_reparametrization, mat2, matMap, map2,
      List.getElem?_zipWith, List.getElem?_map, hx, heps]

theorem row_locality_witness :
    ((kl_divergence [[(0 : ℝ)], [1]] [[0], [1]])[0]?
      = (kl_divergence [[(0 : ℝ)], [2]] [[0], [3]])[0]?) ∧
    ((elboCore (fun v => (v, v)) (fun v => v) [[(0 : ℝ)], [1]] [[0], [1]])[0]?
      = (elboCore (fun v => (v, v)) (fun v => v) [[(0 : ℝ)], [2]] [[0], [3]])[0]?) :=
  row_locality (fun v => (v, v)) (fun v => v) [[0], [1]] [[0], [2]]
    [[0], [1]] [[0], [3]] [[0], [1]] [[0], [2]] [[0], [1]] [[0], [3]] 0
    rfl rfl rfl rfl

/-! ### Lemmas about the Bernoulli sampling path -/

theorem bernRow_length (t u : Vec) :
    (bernRow t u).length = min t.length u.length := by
  simp [bernRow]

theorem bernRow_mem (t u : Vec) : ∀ v ∈ bernRow t u, v = 0 ∨ v = 1 := by
  refine forall_mem_zipWith _ ?_ t u
  intro a b
  by_cases h : b < a
  · right; simp [h]
  · left; simp [h]

theorem bernoulli_spec :
    ∀ (m : Mat) (g : RNG), (bernoulli m g).1.length = m.length ∧
      ∀ i < m.length, ((bernoulli m g).1.getD i []).length = (m.getD i []).length ∧
        ∀ v ∈ (bernoulli m g).1.getD i [], v = 0 ∨ v = 1
  | [], g => ⟨rfl, by intro i hi; simp at hi⟩
  | row :: rows, g => by
    refine ⟨by simp [bernoulli, (bernoulli_spec rows _).1], ?_⟩
    intro i hi
    cases i with
    | zero =>
      constructor
      · show (bernRow row (drawVec row.length g).1).length = row.length
        rw [bernRow_length, drawVec_length]
        omega
      · show ∀ v ∈ bernRow row (drawVec row.length g).1, v = 0 ∨ v = 1
        exact bernRow_mem row _
    | succ i =>
      have hi' : i < rows.length := by simpa using hi
      exact (bernoulli_spec rows (drawVec row.length g).2).2 i hi'

/-- C7: for positive `N`, `sample` returns `z` of shape (N, latent_dim),
`theta` of shape (N, input_dim) and `x` of shape (N, input_dim), with every
entry of `x` exactly 0 or 1, and every entry of `theta` strictly inside
(0, 1) — the latter from the spec-modelled Decoder range contract. -/
theorem sample_shapes_and_ranges (decRow : Vec → Vec) (L D : ℕ)
    (hdlen : ∀ v : Vec, (decRow v).length = D)
    (hdran : ∀ v : Vec, ∀ t ∈ decRow v, 0 < t ∧ t < 1)
    (N : ℤ) (hN : 0 < N) (device : String) (g : RNG) :
    ∃ z theta xs g2, sample decRow L N device g = some (z, theta, xs, g2) ∧
      (z.length : ℤ) = N ∧ (∀ r ∈ z, r.length = L) ∧
      (theta.length : ℤ) = N ∧
      (∀ r ∈ theta, r.length = D ∧ ∀ t ∈ r, 0 < t ∧ t < 1) ∧
      (xs.length : ℤ) = N ∧
      ∀ i < xs.length, (xs.getD i []).length = D ∧
        ∀ v ∈ xs.getD i [], v = 0 ∨ v = 1 := by
  have hneg : ¬(N < 0) := by omega
  refine ⟨(drawMat N.toNat L g).1,
    decode decRow (drawMat N.toNat L g).1,
    (bernoulli (decode decRow (drawMat N.toNat L g).1) (drawMat N.toNat L g).2).1,
    (bernoulli (decode decRow (drawMat N.toNat L g).1) (drawMat N.toNat L g).2).2,
    ?_, ?_, ?_, ?_, ?_, ?_, ?_⟩
  · rw [sample, if_neg hneg]
  · rw [(drawMat_shape N.toNat L g).1]
    omega
  · exact (drawMat_shape N.toNat L g).2
  · rw [decode, List.length_map, (drawMat_shape N.toNat L g).1]
    omega
  · intro r hr
    rw [decode] at hr
    obtain ⟨zr, _, hzr⟩ := List.mem_map.mp hr
    exact ⟨hzr ▸ hdlen zr, hzr ▸ hdran zr⟩
  · rw [(bernoulli_spec (decode decRow (drawMat N.toNat L g).1)
      (drawMat N.toNat L g).2).1, decode, List.length_map,
      (drawMat_shape N.toNat L g).1]
    omega
  · intro i hi
    have hlen := (bernoulli_spec (decode decRow (drawMat N.toNat L g).1)
      (drawMat N.toNat L g).2).1
    have hi' : i < (decode decRow (drawMat N.toNat L g).1).length := by
      rw [← hlen]
      exact hi
    have hspec := (bernoulli_spec (decode decRow (drawMat N.toNat L g).1)
      (drawMat N.toNat L g).2).2 i hi'
    refine ⟨?_, hspec.2⟩
    rw [hspec.1,
      List.getD_eq_getElem (decode decRow (drawMat N.toNat L g).1) [] hi']
    have hmem : (decode decRow (drawMat N.toNat L g).1)[i]
        ∈ (drawMat N.toNat L g).1.map decRow := List.getElem_mem hi'
    obtain ⟨zr, _, hzr⟩ := List.mem_map.mp hmem
    rw [← hzr]
    exact hdlen zr

theorem sample_shapes_and_ranges_witness :
    ∃ z theta xs g2,
      sample (fun _ => []) 0 1 "cpu" ⟨fun _ => 0, 0⟩ = some (z, theta, xs, g2) ∧
      (z.length : ℤ) = 1 ∧ (∀ r ∈ z, r.length = 0) ∧
      (theta.length : ℤ) = 1 ∧
      (∀ r ∈ theta, r.length = 0 ∧ ∀ t ∈ r, 0 < t ∧ t < 1) ∧
      (xs.length : ℤ) = 1 ∧
      ∀ i < xs.length, (xs.getD i []).length = 0 ∧
        ∀ v ∈ xs.getD i [], v = 0 ∨ v = 1 :=
  sample_shapes_and_ranges (fun _ => []) 0 0 (fun _ => rfl)
    (fun v t ht => absurd ht (List.not_mem_nil t)) 1 (by decide) "cpu"
    ⟨fun _ => 0, 0⟩

end VAE
